import Mathlib

/-!
# Verification of the Collatz sequence analysis engine

Shallow embedding of the sequence generator, per-number analyzer, range
analyzer and insight aggregation of the repository
(`src/collatz_conjecture.py`, `src/app.py`, `src/app-vercel.py`).

The Python generation loop (`while current != 1`) has no iteration cap and
its termination is exactly the Collatz conjecture, so the embedding indexes
the loop by explicit fuel: `none` means the loop did not finish within the
given fuel (the Python process would still be running), `some (Except.error e)`
models a raised `ValueError`, and `some (Except.ok v)` models a normal return.
-/

namespace Collatz

/-- One step of the Collatz iteration, from the body of the `while` loop in
`collatz_sequence` (src/collatz_conjecture.py lines 51-56, identical in
src/app.py and src/app-vercel.py): halve when even, else `3 * current + 1`.
All call sites apply it to positive integers, where Lean's `Int` `%` and `/`
agree with Python's `%` and `//`. -/
def collatzStep (current : Int) : Int :=
  if current % 2 = 0 then current / 2 else 3 * current + 1

/-- The `while current != 1` loop of `collatz_sequence`, with explicit fuel.
State is `(current, sequence)`; each iteration steps `current` and appends it,
exactly as lines 51-56 of src/collatz_conjecture.py. -/
def collatzLoop (fuel : Nat) (current : Int) (sequence : List Int) :
    Option (List Int) :=
  if current = 1 then some sequence
  else
    match fuel with
    | 0 => none
    | f + 1 => collatzLoop f (collatzStep current) (sequence ++ [collatzStep current])

/-- Whether the generation loop, started at `current`, reaches 1 within
`fuel` iterations. The accumulated list never influences the control flow of
the `while` loop, so this accumulator-free recursion decides whether
`collatzLoop` returns `some`. -/
def collatzTerm (fuel : Nat) (current : Int) : Bool :=
  if current = 1 then true
  else
    match fuel with
    | 0 => false
    | f + 1 => collatzTerm f (collatzStep current)

/-- `collatzStep` restricted to naturals; agrees with `collatzStep` on the
cast, which keeps bulk termination checks in `Nat` arithmetic. -/
def collatzStepN (current : Nat) : Nat :=
  if current % 2 = 0 then current / 2 else 3 * current + 1

/-- `collatzTerm` restricted to naturals. -/
def collatzTermN (fuel : Nat) (current : Nat) : Bool :=
  if current = 1 then true
  else
    match fuel with
    | 0 => false
    | f + 1 => collatzTermN f (collatzStepN current)

/-- `collatz_sequence(n)` (src/collatz_conjecture.py lines 35-58; the same
function appears in src/app.py lines 20-35 and src/app-vercel.py lines 11-26):
raise `ValueError("Starting number must be positive")` when `n <= 0`, else run
the loop starting from `sequence = [n]`, `current = n`. -/
def collatz_sequence (fuel : Nat) (n : Int) : Option (Except String (List Int)) :=
  if n ≤ 0 then some (Except.error "Starting number must be positive")
  else (collatzLoop fuel n [n]).map Except.ok

/-- The fields of the per-number analysis dict built by `analyze_sequence`
(src/collatz_conjecture.py lines 60-91, src/app.py lines 37-57).
`peak_value` in the Python dict is a copy of `max_value`; `execution_time` and
`timestamp` are wall-clock measurements with no influence on any other field
and are not modelled. -/
structure Analysis where
  starting_number : Int
  sequence_length : Nat
  max_value : Int
  steps_to_peak : Nat
  total_steps : Nat
  sequence : List Int
  deriving Repr, DecidableEq

/-- `analyze_sequence(n)` (src/collatz_conjecture.py lines 60-91, identical
logic in src/app.py lines 37-57 and src/app-vercel.py lines 28-48): generate
the sequence, take `max(sequence)` (Python `max` folds over the non-empty
list) and `sequence.index(max_value)` (index of the first occurrence), and
assemble the metrics. The generated sequence is never empty, so the `[]`
branch is unreachable and mapped to `none`. -/
def analyze_sequence (fuel : Nat) (n : Int) : Option (Except String Analysis) :=
  match collatz_sequence fuel n with
  | none => none
  | some (Except.error e) => some (Except.error e)
  | some (Except.ok seq) =>
    match seq with
    | [] => none
    | x :: xs =>
      some (Except.ok
        { starting_number := n
          sequence_length := (x :: xs).length
          max_value := xs.foldl max x
          steps_to_peak := (x :: xs).findIdx (fun v => v = xs.foldl max x)
          total_steps := (x :: xs).length - 1
          sequence := x :: xs })

/-- Python's `range(s, e + 1)` over integers: the ascending inclusive list of
integers from `s` to `e`, empty when `e < s`. -/
def intRange (s e : Int) : List Int :=
  (List.range (e + 1 - s).toNat).map (fun (i : Nat) => s + (i : Int))

/-- The per-number loop of `analyze_range` (src/app.py lines 59-69,
src/app-vercel.py lines 103-110) and of `run_analysis`
(src/collatz_conjecture.py lines 106-118): analyze each number in turn,
catching exceptions and skipping the number (`except ... continue`).
An analysis that does not finish within the fuel models a Python loop that
never returns, so it propagates as `none`. -/
def analyze_range_loop (fuel : Nat) : List Int → Option (List Analysis)
  | [] => some []
  | n :: ns =>
    match analyze_sequence fuel n with
    | none => none
    | some (Except.error _) => analyze_range_loop fuel ns
    | some (Except.ok a) => (analyze_range_loop fuel ns).map (a :: ·)

/-- The `/api/analyze-range` request validation and iteration (src/app.py
lines 129-152, src/app-vercel.py lines 85-110): reject non-positive bounds,
swap `start > end`, reject a span above 1000, then run the per-number loop
over the inclusive range. -/
def analyze_range_request (fuel : Nat) (start_num end_num : Int) :
    Option (Except String (List Analysis)) :=
  if start_num ≤ 0 ∨ end_num ≤ 0 then
    some (Except.error "Numbers must be positive")
  else
    let p := if start_num > end_num then (end_num, start_num) else (start_num, end_num)
    if p.2 - p.1 > 1000 then
      some (Except.error "Range too large. Maximum 1000 numbers allowed.")
    else
      (analyze_range_loop fuel (intRange p.1 p.2)).map Except.ok

/-- Stable insertion into a list sorted descending by `key`: the new element
goes in front of the first element whose key it reaches. Used to model
pandas `DataFrame.nlargest` (default `keep='first'`). -/
def insertDescBy [LinearOrder β] (key : α → β) (a : α) : List α → List α
  | [] => [a]
  | b :: bs => if key b ≤ key a then a :: b :: bs else b :: insertDescBy key a bs

/-- Stable sort, descending by `key` (insertion sort). -/
def sortDescBy [LinearOrder β] (key : α → β) : List α → List α
  | [] => []
  | a :: as => insertDescBy key a (sortDescBy key as)

/-- Model of pandas `DataFrame.nlargest(k, column)` with the default
`keep='first'` (src/collatz_conjecture.py lines 156-157, src/app.py lines
86-87): the first `k` rows ordered descending by the column, ties resolved
in favour of earlier rows. -/
def nlargest [LinearOrder β] (k : Nat) (key : α → β) (l : List α) : List α :=
  (sortDescBy key l).take k

/-- The integer-valued fields of the insights dict built by
`generate_insights` (src/app.py lines 71-96, src/collatz_conjecture.py lines
138-166). The mean statistics and the `execution_statistics` block are
floating-point wall-clock aggregates and are not modelled. The two rankings
keep the `(starting_number, metric)` record pairs that
`df.nlargest(5, ...)[[...]].to_dict('records')` extracts. -/
structure Insights where
  total_numbers_analyzed : Nat
  max_sequence_length : Nat
  min_sequence_length : Nat
  highest_peak_value : Int
  top_longest : List (Int × Nat)
  top_highest_peak : List (Int × Int)
  deriving Repr, DecidableEq

/-- `generate_insights(data)` (src/app.py lines 71-96): with no data it
returns the `"No data available for analysis"` error dict instead of
computing any statistic; otherwise it aggregates over exactly the rows passed
in. `CollatzConjecture.generate_insights` (src/collatz_conjecture.py lines
138-166) performs the same computation over the accumulated `self.data`
table. -/
def generate_insights (data : List Analysis) : Except String Insights :=
  match data with
  | [] => Except.error "No data available for analysis"
  | d :: ds =>
    Except.ok
      { total_numbers_analyzed := (d :: ds).length
        max_sequence_length := ds.foldl (fun m a => max m a.sequence_length) d.sequence_length
        min_sequence_length := ds.foldl (fun m a => min m a.sequence_length) d.sequence_length
        highest_peak_value := ds.foldl (fun m a => max m a.max_value) d.max_value
        top_longest :=
          (nlargest 5 (fun a => a.sequence_length) (d :: ds)).map
            (fun a => (a.starting_number, a.sequence_length))
        top_highest_peak :=
          (nlargest 5 (fun a => a.max_value) (d :: ds)).map
            (fun a => (a.starting_number, a.max_value)) }

/-- The body of the `/api/analyze-range` route in src/app.py (lines 129-158):
validate, iterate, then derive the insights from this request's results. The
Flask-level `CollatzAnalyzer` instance carries no state that this computation
reads or writes (its `self.data` list is initialized empty and never used),
so the handler is a pure function of the request. -/
def handle_analyze_range (fuel : Nat) (start_num end_num : Int) :
    Option (Except String (List Analysis × Except String Insights)) :=
  (analyze_range_request fuel start_num end_num).map
    (Except.map (fun results => (results, generate_insights results)))

/-- `CollatzConjecture.run_analysis(start, end)` (src/collatz_conjecture.py
lines 93-136) with the instance's accumulated `self.data` table made an
explicit argument: no bound validation, no swap, no span cap; the per-number
loop skips failures, the produced frame is concatenated onto `self.data`
(line 133), and the pair (returned frame, updated table) is the result. -/
def run_analysis (fuel : Nat) (data : List Analysis) (start_range end_range : Int) :
    Option (List Analysis × List Analysis) :=
  (analyze_range_loop fuel (intRange start_range end_range)).map
    (fun df => (df, data ++ df))

/-- The analysis of 1: sequence `[1]`, peak 1 at index 0. -/
def analysisOf1 : Analysis := ⟨1, 1, 1, 0, 0, [1]⟩

/-- The analysis of 2: sequence `[2, 1]`, peak 2 at index 0. -/
def analysisOf2 : Analysis := ⟨2, 2, 2, 0, 1, [2, 1]⟩

/-- The analyses of 2, 3, 4, 5, as produced by a range analysis of `[2, 5]`. -/
def analysesOf2to5 : List Analysis :=
  [⟨2, 2, 2, 0, 1, [2, 1]⟩,
   ⟨3, 8, 16, 3, 7, [3, 10, 5, 16, 8, 4, 2, 1]⟩,
   ⟨4, 3, 4, 0, 2, [4, 2, 1]⟩,
   ⟨5, 6, 16, 1, 5, [5, 16, 8, 4, 2, 1]⟩]

/-- The insights over the single analysis of 2. -/
def insightsOf2 : Insights := ⟨1, 2, 2, 2, [(2, 2)], [(2, 2)]⟩

/-! ## Lemmas about the generation loop -/

lemma collatzLoop_one (fuel : Nat) (acc : List Int) :
    collatzLoop fuel 1 acc = some acc := by
  cases fuel <;> simp [collatzLoop]

lemma collatzLoop_ne_one {c : Int} (h : c ≠ 1) (fuel : Nat) (acc : List Int) :
    collatzLoop (fuel + 1) c acc =
      collatzLoop fuel (collatzStep c) (acc ++ [collatzStep c]) := by
  simp [collatzLoop, h]

/-- The loop only ever appends: its input list is an initial segment of its
output. -/
lemma collatzLoop_sub : ∀ {fuel : Nat} {c : Int} {acc seq : List Int},
    collatzLoop fuel c acc = some seq → acc <+: seq := by
  intro fuel
  induction fuel with
  | zero =>
    intro c acc seq h
    by_cases hc : c = 1
    · subst hc; rw [collatzLoop_one] at h; cases h; exact List.prefix_refl _
    · simp [collatzLoop, hc] at h
  | succ f ih =>
    intro c acc seq h
    by_cases hc : c = 1
    · subst hc; rw [collatzLoop_one] at h; cases h; exact List.prefix_refl _
    · rw [collatzLoop_ne_one hc] at h
      exact List.IsPrefix.trans (List.prefix_append acc _) (ih h)

/-- If the input list ends with the current value, the output ends with 1. -/
lemma collatzLoop_getLast : ∀ {fuel : Nat} {c : Int} {acc seq : List Int},
    collatzLoop fuel c acc = some seq → acc.getLast? = some c →
    seq.getLast? = some 1 := by
  intro fuel
  induction fuel with
  | zero =>
    intro c acc seq h hlast
    by_cases hc : c = 1
    · subst hc; rw [collatzLoop_one] at h; cases h; exact hlast
    · simp [collatzLoop, hc] at h
  | succ f ih =>
    intro c acc seq h hlast
    by_cases hc : c = 1
    · subst hc; rw [collatzLoop_one] at h; cases h; exact hlast
    · rw [collatzLoop_ne_one hc] at h
      exact ih h (List.getLast?_concat acc)

/-- If consecutive elements of the input list are related by `collatzStep`
and the input ends with the current value, the same holds of the output. -/
lemma collatzLoop_chain : ∀ {fuel : Nat} {c : Int} {acc seq : List Int},
    collatzLoop fuel c acc = some seq → acc.getLast? = some c →
    List.Chain' (fun a b => b = collatzStep a) acc →
    List.Chain' (fun a b => b = collatzStep a) seq := by
  intro fuel
  induction fuel with
  | zero =>
    intro c acc seq h hlast hchain
    by_cases hc : c = 1
    · subst hc; rw [collatzLoop_one] at h; cases h; exact hchain
    · simp [collatzLoop, hc] at h
  | succ f ih =>
    intro c acc seq h hlast hchain
    by_cases hc : c = 1
    · subst hc; rw [collatzLoop_one] at h; cases h; exact hchain
    · rw [collatzLoop_ne_one hc] at h
      refine ih h (List.getLast?_concat acc) ?_
      rw [List.chain'_append]
      refine ⟨hchain, List.chain'_singleton _, ?_⟩
      intro x hx y hy
      rw [hlast] at hx
      cases hx
      cases hy
      rfl

/-- If 1 occurs in the input exactly when the current value is 1 (and then
as its last element, once), the output contains 1 exactly once. -/
lemma collatzLoop_count : ∀ {fuel : Nat} {c : Int} {acc seq : List Int},
    collatzLoop fuel c acc = some seq →
    acc.count 1 = (if c = 1 then 1 else 0) →
    seq.count 1 = 1 := by
  intro fuel
  induction fuel with
  | zero =>
    intro c acc seq h hcount
    by_cases hc : c = 1
    · subst hc; rw [collatzLoop_one] at h; cases h; simpa using hcount
    · simp [collatzLoop, hc] at h
  | succ f ih =>
    intro c acc seq h hcount
    by_cases hc : c = 1
    · subst hc; rw [collatzLoop_one] at h; cases h; simpa using hcount
    · rw [collatzLoop_ne_one hc] at h
      refine ih h ?_
      rw [List.count_append, hcount]
      by_cases hs : collatzStep c = 1 <;> simp [hs, hc, List.count_singleton]

/-- The loop finishes within the fuel exactly when `collatzTerm` says so. -/
lemma collatzLoop_isSome : ∀ (fuel : Nat) (c : Int) (acc : List Int),
    (collatzLoop fuel c acc).isSome = collatzTerm fuel c := by
  intro fuel
  induction fuel with
  | zero =>
    intro c acc
    by_cases hc : c = 1 <;> simp [collatzLoop, collatzTerm, hc]
  | succ f ih =>
    intro c acc
    by_cases hc : c = 1
    · simp [collatzLoop, collatzTerm, hc]
    · rw [collatzLoop_ne_one hc]
      simp only [collatzTerm, hc, if_false]
      exact ih _ _

/-- `collatzStep` commutes with the cast from `Nat`. -/
lemma collatzStep_natCast (m : Nat) :
    collatzStep (m : Int) = (collatzStepN m : Int) := by
  simp only [collatzStep, collatzStepN]
  by_cases h : m % 2 = 0
  · have h2 : (m : Int) % 2 = 0 := by omega
    simp only [h, h2, if_true]
    omega
  · have h2 : ¬((m : Int) % 2 = 0) := by omega
    simp only [h, h2, if_false]
    push_cast
    ring

/-- `collatzTerm` commutes with the cast from `Nat`. -/
lemma collatzTerm_natCast : ∀ (fuel : Nat) (m : Nat),
    collatzTerm fuel (m : Int) = collatzTermN fuel m := by
  intro fuel
  induction fuel with
  | zero =>
    intro m
    by_cases h : m = 1
    · simp [collatzTerm, collatzTermN, h]
    · have h2 : ¬((m : Int) = 1) := by omega
      simp [collatzTerm, collatzTermN, h, h2]
  | succ f ih =>
    intro m
    by_cases h : m = 1
    · simp [collatzTerm, collatzTermN, h]
    · have h2 : ¬((m : Int) = 1) := by omega
      simp only [collatzTerm, collatzTermN, h, h2, if_false]
      rw [collatzStep_natCast, ih]

/-! ## Lemmas about the generator and the per-number analysis -/

lemma collatz_sequence_nonpos {fuel : Nat} {n : Int} (h : n ≤ 0) :
    collatz_sequence fuel n = some (Except.error "Starting number must be positive") := by
  simp [collatz_sequence, h]

lemma collatz_sequence_ok {fuel : Nat} {n : Int} {seq : List Int}
    (h : collatz_sequence fuel n = some (Except.ok seq)) :
    0 < n ∧ collatzLoop fuel n [n] = some seq := by
  by_cases hn : n ≤ 0
  · simp [collatz_sequence, hn] at h
  · refine ⟨by omega, ?_⟩
    simp only [collatz_sequence, hn, if_false] at h
    cases hl : collatzLoop fuel n [n] with
    | none => rw [hl] at h; simp at h
    | some s => rw [hl] at h; simpa using h

lemma collatz_sequence_pos_no_error {fuel : Nat} {n : Int} {e : String}
    (hn : 0 < n) : collatz_sequence fuel n ≠ some (Except.error e) := by
  have hn' : ¬n ≤ 0 := by omega
  simp only [collatz_sequence, hn', if_false]
  cases collatzLoop fuel n [n] <;> simp

lemma foldl_max_le_init : ∀ (xs : List Int) (x : Int), x ≤ xs.foldl max x := by
  intro xs
  induction xs with
  | nil => intro x; exact le_refl x
  | cons a as ih =>
    intro x
    calc x ≤ max x a := le_max_left x a
    _ ≤ as.foldl max (max x a) := ih (max x a)

lemma foldl_max_mem : ∀ (xs : List Int) (x : Int), xs.foldl max x ∈ x :: xs := by
  intro xs
  induction xs with
  | nil => intro x; simp [List.foldl]
  | cons a as ih =>
    intro x
    simp only [List.foldl]
    rcases List.mem_cons.mp (ih (max x a)) with h1 | h1
    · rw [h1]
      rcases max_choice x a with h2 | h2 <;> rw [h2] <;> simp
    · simp [h1]

lemma mem_le_foldl_max : ∀ (xs : List Int) (x y : Int), y ∈ xs → y ≤ xs.foldl max x := by
  intro xs
  induction xs with
  | nil => intro x y hy; cases hy
  | cons a as ih =>
    intro x y hy
    simp only [List.foldl]
    rcases List.mem_cons.mp hy with h1 | h1
    · subst h1
      calc y ≤ max x y := le_max_right x y
      _ ≤ as.foldl max (max x y) := foldl_max_le_init as _
    · exact ih (max x a) y h1

lemma le_foldl_max (xs : List Int) (x y : Int) (hy : y ∈ x :: xs) :
    y ≤ xs.foldl max x := by
  rcases List.mem_cons.mp hy with h1 | h1
  · subst h1; exact foldl_max_le_init xs y
  · exact mem_le_foldl_max xs x y h1

lemma analyze_sequence_ok {fuel : Nat} {n : Int} {a : Analysis}
    (h : analyze_sequence fuel n = some (Except.ok a)) :
    ∃ x xs, collatz_sequence fuel n = some (Except.ok (x :: xs)) ∧
      a = ⟨n, (x :: xs).length, xs.foldl max x,
           (x :: xs).findIdx (fun v => v = xs.foldl max x),
           (x :: xs).length - 1, x :: xs⟩ := by
  cases hcs : collatz_sequence fuel n with
  | none => simp [analyze_sequence, hcs] at h
  | some v =>
    cases v with
    | error e => simp [analyze_sequence, hcs] at h
    | ok seq =>
      cases seq with
      | nil => simp [analyze_sequence, hcs] at h
      | cons x xs =>
        refine ⟨x, xs, rfl, ?_⟩
        simp only [analyze_sequence, hcs, Option.some_inj] at h
        cases h
        rfl

lemma analyze_sequence_of_term {fuel : Nat} {n : Int}
    (hn : 0 < n) (ht : collatzTerm fuel n = true) :
    ∃ a, analyze_sequence fuel n = some (Except.ok a) ∧ a.starting_number = n := by
  have hsome : (collatzLoop fuel n [n]).isSome = true := by
    rw [collatzLoop_isSome]; exact ht
  rcases Option.isSome_iff_exists.mp hsome with ⟨seq, hseq⟩
  have hpre := collatzLoop_sub hseq
  have hn' : ¬n ≤ 0 := by omega
  have hcs : collatz_sequence fuel n = some (Except.ok seq) := by
    simp [collatz_sequence, hn', hseq]
  cases seq with
  | nil => simpa using hpre.length_le
  | cons x xs =>
    refine ⟨⟨n, (x :: xs).length, xs.foldl max x,
            (x :: xs).findIdx (fun v => v = xs.foldl max x),
            (x :: xs).length - 1, x :: xs⟩, ?_, rfl⟩
    simp [analyze_sequence, hcs]

/-! ## Lemmas about the range iteration -/

lemma mem_intRange {s e n : Int} : n ∈ intRange s e ↔ s ≤ n ∧ n ≤ e := by
  simp only [intRange, List.mem_map, List.mem_range]
  constructor
  · rintro ⟨i, hi, rfl⟩
    omega
  · intro ⟨h1, h2⟩
    exact ⟨(n - s).toNat, by omega, by omega⟩

/-- For a positive starting number the analysis never raises: it either runs
forever (fuel runs out) or returns a result. -/
lemma analyze_sequence_pos_no_error {fuel : Nat} {n : Int} {e : String}
    (hn : 0 < n) : analyze_sequence fuel n ≠ some (Except.error e) := by
  intro h
  cases hcs : collatz_sequence fuel n with
  | none => simp [analyze_sequence, hcs] at h
  | some v =>
    cases v with
    | error e2 => exact collatz_sequence_pos_no_error hn hcs
    | ok seq =>
      cases seq with
      | nil => simp [analyze_sequence, hcs] at h
      | cons x xs => simp [analyze_sequence, hcs] at h

/-- Every number of the batch that analyzes successfully contributes one
result, in order; for a batch of positive numbers none is skipped, so the
successful results enumerate the batch. -/
lemma analyze_range_loop_map : ∀ {fuel : Nat} {ns : List Int} {lst : List Analysis},
    (∀ n ∈ ns, 0 < n) → analyze_range_loop fuel ns = some lst →
    lst.map Analysis.starting_number = ns := by
  intro fuel ns
  induction ns with
  | nil => intro lst _ h; cases h; rfl
  | cons n ns ih =>
    intro lst hpos h
    have hn : 0 < n := hpos n (List.mem_cons_self _ _)
    cases ha : analyze_sequence fuel n with
    | none => rw [analyze_range_loop, ha] at h; cases h
    | some v =>
      cases v with
      | error e => exact absurd ha (analyze_sequence_pos_no_error hn)
      | ok a =>
        rw [analyze_range_loop, ha] at h
        cases hrest : analyze_range_loop fuel ns with
        | none => rw [hrest] at h; cases h
        | some rest =>
          rw [hrest] at h
          simp only [Option.map_some', Option.some_inj] at h
          subst h
          rcases analyze_sequence_ok ha with ⟨x, xs, hcs, hafields⟩
          have hstart : a.starting_number = n := by rw [hafields]
          simp only [List.map_cons, hstart,
            ih (fun m hm => hpos m (List.mem_cons_of_mem _ hm)) hrest]

/-- When every number of the batch is positive and reaches 1 within the
fuel, the batch loop completes. -/
lemma analyze_range_loop_total : ∀ {fuel : Nat} {ns : List Int},
    (∀ n ∈ ns, 0 < n ∧ collatzTerm fuel n = true) →
    ∃ lst, analyze_range_loop fuel ns = some lst := by
  intro fuel ns
  induction ns with
  | nil => intro _; exact ⟨[], rfl⟩
  | cons n ns ih =>
    intro h
    obtain ⟨hn, ht⟩ := h n (List.mem_cons_self _ _)
    rcases analyze_sequence_of_term hn ht with ⟨a, ha, -⟩
    rcases ih (fun m hm => h m (List.mem_cons_of_mem _ hm)) with ⟨rest, hrest⟩
    exact ⟨a :: rest, by rw [analyze_range_loop, ha, hrest]; rfl⟩

/-- A list that contains 1 exactly once, as its last element, has no 1 at any
earlier position. -/
lemma no_early_one {seq : List Int} (hlast : seq.getLast? = some 1)
    (hcount : seq.count 1 = 1) :
    ∀ j, j + 1 < seq.length → seq[j]? ≠ some 1 := by
  intro j hj h1
  have hsplit := List.take_append_drop (j + 1) seq
  have hc : (seq.take (j + 1)).count 1 + (seq.drop (j + 1)).count 1 = 1 := by
    rw [← List.count_append, hsplit, hcount]
  have hmem1 : (1 : Int) ∈ seq.take (j + 1) := by
    have : (seq.take (j + 1))[j]? = some 1 := by
      rw [List.getElem?_take_of_lt (by omega)]
      exact h1
    exact List.getElem?_mem this
  have hmem2 : (1 : Int) ∈ seq.drop (j + 1) := by
    have hlen : seq.length - 1 < seq.length := by omega
    have hgl : seq[seq.length - 1]? = some 1 := by
      rwa [← List.getLast?_eq_getElem?]
    have : (seq.drop (j + 1))[seq.length - 1 - (j + 1)]? = some 1 := by
      rw [List.getElem?_drop]
      rwa [show j + 1 + (seq.length - 1 - (j + 1)) = seq.length - 1 by omega]
    exact List.getElem?_mem this
  have hp1 : 0 < (seq.take (j + 1)).count 1 := List.count_pos_iff.mpr hmem1
  have hp2 : 0 < (seq.drop (j + 1)).count 1 := List.count_pos_iff.mpr hmem2
  omega

/-! ## The claims about the sequence generator and per-number analysis -/

/-- **C1**: for every positive `n` the generator returns the list starting at
`n` whose consecutive elements are related by the even/odd step function and
whose last element is 1; `generate(1) = [1]`; and for `n ≤ 0` it fails with
the invalid-input error instead of producing a sequence. Stated over every
fuel bound: a returned sequence (`some (Except.ok _)`) always has this shape,
and the error cases do not depend on the fuel at all. -/
theorem C1_sequence_generator :
    (∀ (fuel : Nat) (n : Int), n ≤ 0 →
      collatz_sequence fuel n = some (Except.error "Starting number must be positive")) ∧
    (∀ fuel : Nat, collatz_sequence fuel 1 = some (Except.ok [1])) ∧
    (∀ (fuel : Nat) (n : Int) (seq : List Int),
      collatz_sequence fuel n = some (Except.ok seq) →
      seq.head? = some n ∧
      List.Chain' (fun a b => b = collatzStep a) seq ∧
      seq.getLast? = some 1) := by
  refine ⟨fun fuel n h => collatz_sequence_nonpos h, fun fuel => ?_, ?_⟩
  · have h1 : ¬(1 : Int) ≤ 0 := by norm_num
    simp [collatz_sequence, h1, collatzLoop_one]
  · intro fuel n seq h
    obtain ⟨hn, hloop⟩ := collatz_sequence_ok h
    rcases collatzLoop_sub hloop with ⟨t, ht⟩
    refine ⟨?_, ?_, ?_⟩
    · rw [← ht]; rfl
    · exact collatzLoop_chain hloop rfl (List.chain'_singleton n)
    · exact collatzLoop_getLast hloop rfl

/-- Witness for C1: the error branch at the concrete non-positive input 0,
and the shape facts read off the concrete sequence of 6. -/
theorem C1_sequence_generator_witness :
    collatz_sequence 0 0 = some (Except.error "Starting number must be positive") ∧
    (([6, 3, 10, 5, 16, 8, 4, 2, 1] : List Int).head? = some 6 ∧
      List.Chain' (fun a b => b = collatzStep a) [6, 3, 10, 5, 16, 8, 4, 2, 1] ∧
      ([6, 3, 10, 5, 16, 8, 4, 2, 1] : List Int).getLast? = some 1) :=
  ⟨C1_sequence_generator.1 0 0 (by norm_num),
   C1_sequence_generator.2.2 10 6 [6, 3, 10, 5, 16, 8, 4, 2, 1] rfl⟩

/-- **C2, counterexample**: the claimed invariant `1 ≤ steps_to_peak` fails
on the code at `n = 1`, whose analysis has `steps_to_peak = 0` (the peak 1
is the first element of `[1]`). -/
theorem C2_analysis_invariants_counterexample :
    (analyze_sequence 1 1).map (Except.map Analysis.steps_to_peak) =
      some (Except.ok 0) ∧ ¬(1 ≤ (0 : Nat)) :=
  ⟨rfl, by norm_num⟩

/-- **C2, amended**: as C2, with the lower bound on `steps_to_peak` weakened
from `1 ≤ steps_to_peak` to `0 ≤ steps_to_peak` (it is a zero-based index,
0 whenever the starting number is the peak): every returned analysis
satisfies `sequence[0] = starting_number`, last element 1,
`steps_to_peak < sequence_length`, `max_value = max(sequence)`, and
`sequence_length = total_steps + 1`. -/
theorem C2_analysis_invariants_amended :
    ∀ (fuel : Nat) (n : Int) (a : Analysis), 0 < n →
      analyze_sequence fuel n = some (Except.ok a) →
      a.sequence.head? = some a.starting_number ∧
      a.sequence.getLast? = some 1 ∧
      a.steps_to_peak < a.sequence_length ∧
      a.max_value ∈ a.sequence ∧ (∀ y ∈ a.sequence, y ≤ a.max_value) ∧
      a.sequence_length = a.total_steps + 1 := by
  intro fuel n a hn h
  rcases analyze_sequence_ok h with ⟨x, xs, hcs, hfields⟩
  obtain ⟨-, hloop⟩ := collatz_sequence_ok hcs
  rcases collatzLoop_sub hloop with ⟨t, ht⟩
  have hx : x = n := by
    have := ht
    simp only [List.singleton_append] at this
    exact (List.cons.injEq _ _ _ _ ▸ this.symm).1
  subst hfields
  refine ⟨?_, ?_, ?_, ?_, ?_, ?_⟩
  · simpa using hx
  · exact collatzLoop_getLast hloop rfl
  · exact List.findIdx_lt_length_of_exists
      ⟨xs.foldl max x, foldl_max_mem xs x, by simp⟩
  · exact foldl_max_mem xs x
  · exact fun y hy => le_foldl_max xs x y hy
  · simp

/-- Witness for C2 amended, at `n = 6` with its concrete sequence. -/
theorem C2_analysis_invariants_amended_witness :
    ([6, 3, 10, 5, 16, 8, 4, 2, 1] : List Int).head? = some 6 ∧
    ([6, 3, 10, 5, 16, 8, 4, 2, 1] : List Int).getLast? = some 1 ∧
    4 < 9 ∧
    (16 : Int) ∈ ([6, 3, 10, 5, 16, 8, 4, 2, 1] : List Int) ∧
    (∀ y ∈ ([6, 3, 10, 5, 16, 8, 4, 2, 1] : List Int), y ≤ 16) ∧
    9 = 8 + 1 :=
  C2_analysis_invariants_amended 10 6 ⟨6, 9, 16, 4, 8, [6, 3, 10, 5, 16, 8, 4, 2, 1]⟩
    (by norm_num) rfl

set_option maxRecDepth 40000 in
/-- **C3**: the analysis of 27 reports `sequence_length = 112`,
`max_value = 9232` and `total_steps = 111`. -/
theorem C3_analysis_of_27 :
    (analyze_sequence 120 27).map (Except.map (fun a =>
      (a.sequence_length, a.max_value, a.total_steps))) =
      some (Except.ok (112, 9232, 111)) := rfl

/-- **C4**: `steps_to_peak` is the index of the *first* occurrence of
`max_value` in the sequence: the sequence holds `max_value` at that index and
at no earlier one. -/
theorem C4_steps_to_peak_first_occurrence :
    ∀ (fuel : Nat) (n : Int) (a : Analysis),
      analyze_sequence fuel n = some (Except.ok a) →
      a.sequence[a.steps_to_peak]? = some a.max_value ∧
      ∀ j < a.steps_to_peak, a.sequence[j]? ≠ some a.max_value := by
  intro fuel n a h
  rcases analyze_sequence_ok h with ⟨x, xs, hcs, hfields⟩
  subst hfields
  have hlt : (x :: xs).findIdx (fun v => v = xs.foldl max x) < (x :: xs).length :=
    List.findIdx_lt_length_of_exists ⟨xs.foldl max x, foldl_max_mem xs x, by simp⟩
  constructor
  · rw [List.getElem?_eq_getElem hlt, Option.some_inj]
    have := List.findIdx_getElem (w := hlt)
    simpa using this
  · intro j hj hcontra
    have hjlen : j < (x :: xs).length := lt_trans hj hlt
    rw [List.getElem?_eq_getElem hjlen, Option.some_inj] at hcontra
    have hfalse := List.not_of_lt_findIdx hj
    simp [hcontra] at hfalse

/-- Witness for C4, at `n = 6`: the peak 16 sits at index 4 of the sequence
of 6 and at no earlier index. -/
theorem C4_steps_to_peak_first_occurrence_witness :
    ([6, 3, 10, 5, 16, 8, 4, 2, 1] : List Int)[4]? = some 16 ∧
    ∀ j < 4, ([6, 3, 10, 5, 16, 8, 4, 2, 1] : List Int)[j]? ≠ some 16 :=
  C4_steps_to_peak_first_occurrence 10 6
    ⟨6, 9, 16, 4, 8, [6, 3, 10, 5, 16, 8, 4, 2, 1]⟩ rfl

/-- **C10**: in every returned sequence the value 1 occurs exactly once, as
the final element; no earlier element equals 1 (the loop exits the first time
the current value reaches 1). -/
theorem C10_one_terminal_and_unique :
    ∀ (fuel : Nat) (n : Int) (seq : List Int),
      collatz_sequence fuel n = some (Except.ok seq) →
      seq.getLast? = some 1 ∧ seq.count 1 = 1 ∧
      ∀ j, j + 1 < seq.length → seq[j]? ≠ some 1 := by
  intro fuel n seq h
  obtain ⟨hn, hloop⟩ := collatz_sequence_ok h
  have hlast : seq.getLast? = some 1 := collatzLoop_getLast hloop rfl
  have hcount : seq.count 1 = 1 := by
    refine collatzLoop_count hloop ?_
    by_cases h1 : n = 1 <;> simp [h1, List.count_cons, List.count_nil]
  exact ⟨hlast, hcount, no_early_one hlast hcount⟩

/-- Witness for C10, on the concrete sequence of 6. -/
theorem C10_one_terminal_and_unique_witness :
    ([6, 3, 10, 5, 16, 8, 4, 2, 1] : List Int).getLast? = some 1 ∧
    ([6, 3, 10, 5, 16, 8, 4, 2, 1] : List Int).count 1 = 1 ∧
    ∀ j, j + 1 < ([6, 3, 10, 5, 16, 8, 4, 2, 1] : List Int).length →
      ([6, 3, 10, 5, 16, 8, 4, 2, 1] : List Int)[j]? ≠ some 1 :=
  C10_one_terminal_and_unique 10 6 [6, 3, 10, 5, 16, 8, 4, 2, 1] rfl

/-! ## The claims about the range analyzer -/

lemma analyze_range_request_symm (fuel : Nat) (s e : Int) :
    analyze_range_request fuel s e = analyze_range_request fuel e s := by
  unfold analyze_range_request
  by_cases h1 : s ≤ 0 ∨ e ≤ 0
  · have h2 : e ≤ 0 ∨ s ≤ 0 := h1.symm
    simp [h1, h2]
  · have h2 : ¬(e ≤ 0 ∨ s ≤ 0) := fun h => h1 h.symm
    simp only [h1, h2, if_false]
    rcases lt_trichotomy s e with hlt | heq | hgt
    · have hg1 : ¬(s > e) := by omega
      have hg2 : e > s := hlt
      simp [hg1, hg2]
    · subst heq
      rfl
    · have hg1 : s > e := hgt
      have hg2 : ¬(e > s) := by omega
      simp [hg1, hg2]

lemma analyze_range_request_ok_le {fuel : Nat} {s e : Int} {lst : List Analysis}
    (hs : 0 < s) (hse : s ≤ e)
    (h : analyze_range_request fuel s e = some (Except.ok lst)) :
    lst.map Analysis.starting_number = intRange s e := by
  have h1 : ¬(s ≤ 0 ∨ e ≤ 0) := by omega
  have h2 : ¬(s > e) := by omega
  simp only [analyze_range_request, h1, h2, if_false] at h
  by_cases h3 : e - s > 1000
  · simp [h3] at h
  · simp only [h3, if_false] at h
    cases hl : analyze_range_loop fuel (intRange s e) with
    | none => rw [hl] at h; simp at h
    | some l2 =>
      rw [hl] at h
      simp only [Option.map_some', Option.some_inj, Except.ok.injEq] at h
      subst h
      exact analyze_range_loop_map
        (fun n hn => by have := mem_intRange.mp hn; omega) hl

lemma analyze_range_request_ok {fuel : Nat} {s e : Int} {lst : List Analysis}
    (hs : 0 < s) (he : 0 < e)
    (h : analyze_range_request fuel s e = some (Except.ok lst)) :
    lst.map Analysis.starting_number = intRange (min s e) (max s e) := by
  rcases le_total s e with hse | hes
  · rw [min_eq_left hse, max_eq_right hse]
    exact analyze_range_request_ok_le hs hse h
  · rw [min_eq_right hes, max_eq_left hes]
    rw [analyze_range_request_symm] at h
    exact analyze_range_request_ok_le he hes h

/-- **C5**: a range request with `start > end` behaves identically to the
swapped request (the bounds are normalized before any other check), every
successful range call returns one result per integer of the inclusive
ascending range in increasing order of starting number, and concretely
`analyzeRange(5, 2)` returns exactly the 4 results for 2, 3, 4, 5 in that
order. -/
theorem C5_range_swap_normalization :
    (∀ (fuel : Nat) (s e : Int),
      analyze_range_request fuel s e = analyze_range_request fuel e s) ∧
    (∀ (fuel : Nat) (s e : Int) (lst : List Analysis), 0 < s → 0 < e →
      analyze_range_request fuel s e = some (Except.ok lst) →
      lst.map Analysis.starting_number = intRange (min s e) (max s e)) ∧
    (analyze_range_request 20 5 2).map
        (Except.map (List.map Analysis.starting_number)) =
      some (Except.ok [2, 3, 4, 5]) :=
  ⟨analyze_range_request_symm,
   fun _ _ _ _ hs he h => analyze_range_request_ok hs he h,
   rfl⟩

/-- Witness for C5: the request `(5, 2)` itself, with its hypotheses
discharged on the concrete result list. -/
theorem C5_range_swap_normalization_witness :
    analysesOf2to5.map Analysis.starting_number = intRange (min 5 2) (max 5 2) :=
  C5_range_swap_normalization.2.1 20 5 2 analysesOf2to5
    (by norm_num) (by norm_num) rfl

set_option maxRecDepth 100000 in
set_option maxHeartbeats 4000000 in
lemma collatzTermN_upto_1001 :
    ((List.range 1001).all (fun i => collatzTermN 200 (i + 1))) = true := by
  decide

/-- **C6**: under the span cap of 1000 (span `end - start`, bounds
inclusive), `analyzeRange(1, 2000)` fails with the range-too-large error
whatever the fuel — in particular with fuel 0, i.e. before any per-number
work — while `analyzeRange(1, 1001)`, whose span is exactly 1000, passes the
cap and returns one result per integer of the range. -/
theorem C6_range_span_cap :
    (∀ fuel : Nat, analyze_range_request fuel 1 2000 =
      some (Except.error "Range too large. Maximum 1000 numbers allowed.")) ∧
    (∃ lst, analyze_range_request 200 1 1001 = some (Except.ok lst) ∧
      lst.map Analysis.starting_number = intRange 1 1001) := by
  constructor
  · intro fuel
    rfl
  · have hterm : ∀ n ∈ intRange 1 1001, 0 < n ∧ collatzTerm 200 n = true := by
      intro n hn
      have hb := mem_intRange.mp hn
      refine ⟨by omega, ?_⟩
      have hcast : ((n.toNat : Nat) : Int) = n := by omega
      rw [← hcast, collatzTerm_natCast]
      have hall := List.all_eq_true.mp collatzTermN_upto_1001 (n.toNat - 1)
        (by rw [List.mem_range]; omega)
      have heq : n.toNat - 1 + 1 = n.toNat := by omega
      simp only [heq] at hall
      exact hall
    rcases analyze_range_loop_total hterm with ⟨lst, hl⟩
    refine ⟨lst, ?_, analyze_range_loop_map (fun n hn => (hterm n hn).1) hl⟩
    have h1 : ¬((1 : Int) ≤ 0 ∨ (1001 : Int) ≤ 0) := by norm_num
    have h2 : ¬((1 : Int) > 1001) := by norm_num
    simp only [analyze_range_request, h1, h2, if_false]
    norm_num
    rw [hl]

/-! ## Lemmas about the top-K ranking -/

lemma length_insertDescBy [LinearOrder β] (key : α → β) (a : α) :
    ∀ l : List α, (insertDescBy key a l).length = l.length + 1 := by
  intro l
  induction l with
  | nil => rfl
  | cons b bs ih =>
    by_cases h : key b ≤ key a <;> simp [insertDescBy, h, ih]

lemma length_sortDescBy [LinearOrder β] (key : α → β) :
    ∀ l : List α, (sortDescBy key l).length = l.length := by
  intro l
  induction l with
  | nil => rfl
  | cons a as ih => simp [sortDescBy, length_insertDescBy, ih]

lemma mem_insertDescBy [LinearOrder β] (key : α → β) (a y : α) :
    ∀ l : List α, y ∈ insertDescBy key a l → y = a ∨ y ∈ l := by
  intro l
  induction l with
  | nil => intro h; simpa [insertDescBy] using h
  | cons b bs ih =>
    intro h
    by_cases hb : key b ≤ key a
    · simp only [insertDescBy, hb, if_true] at h
      rcases List.mem_cons.mp h with h1 | h1
      · exact Or.inl h1
      · exact Or.inr h1
    · simp only [insertDescBy, hb, if_false] at h
      rcases List.mem_cons.mp h with h1 | h1
      · exact Or.inr (h1 ▸ List.mem_cons_self _ _)
      · rcases ih h1 with h2 | h2
        · exact Or.inl h2
        · exact Or.inr (List.mem_cons_of_mem _ h2)

lemma pairwise_insertDescBy [LinearOrder β] (key : α → β) (a : α) :
    ∀ {l : List α}, List.Pairwise (fun x y => key y ≤ key x) l →
    List.Pairwise (fun x y => key y ≤ key x) (insertDescBy key a l) := by
  intro l
  induction l with
  | nil => intro _; simp [insertDescBy]
  | cons b bs ih =>
    intro h
    rcases List.pairwise_cons.mp h with ⟨hb, hbs⟩
    by_cases hba : key b ≤ key a
    · simp only [insertDescBy, hba, if_true]
      refine List.pairwise_cons.mpr ⟨?_, h⟩
      intro y hy
      rcases List.mem_cons.mp hy with h1 | h1
      · exact h1 ▸ hba
      · exact le_trans (hb y h1) hba
    · simp only [insertDescBy, hba, if_false]
      refine List.pairwise_cons.mpr ⟨?_, ih hbs⟩
      intro y hy
      rcases mem_insertDescBy key a y bs hy with h1 | h1
      · exact h1 ▸ le_of_lt (lt_of_not_le hba)
      · exact hb y h1

lemma pairwise_sortDescBy [LinearOrder β] (key : α → β) :
    ∀ l : List α, List.Pairwise (fun x y => key y ≤ key x) (sortDescBy key l) := by
  intro l
  induction l with
  | nil => simp [sortDescBy]
  | cons a as ih => exact pairwise_insertDescBy key a ih

lemma filter_insertDescBy [LinearOrder β] (key : α → β) (a : α) (v : β) :
    ∀ l : List α, (insertDescBy key a l).filter (fun x => key x = v) =
      if key a = v then a :: l.filter (fun x => key x = v)
      else l.filter (fun x => key x = v) := by
  intro l
  induction l with
  | nil =>
    by_cases h : key a = v <;> simp [insertDescBy, List.filter, h]
  | cons b bs ih =>
    by_cases hba : key b ≤ key a
    · rw [insertDescBy, if_pos hba]
      by_cases ha : key a = v <;> simp [List.filter_cons, ha]
    · rw [insertDescBy, if_neg hba]
      have hab : key a < key b := lt_of_not_le hba
      by_cases ha : key a = v
      · have hbv : ¬(key b = v) := by
          intro hbv
          rw [ha] at hab
          rw [hbv] at hab
          exact lt_irrefl v hab
        simp [List.filter_cons, hbv, ih, ha]
      · simp [List.filter_cons, ih, ha]

lemma filter_sortDescBy [LinearOrder β] (key : α → β) (v : β) :
    ∀ l : List α, (sortDescBy key l).filter (fun x => key x = v) =
      l.filter (fun x => key x = v) := by
  intro l
  induction l with
  | nil => rfl
  | cons a as ih =>
    rw [sortDescBy, filter_insertDescBy]
    by_cases ha : key a = v <;> simp [List.filter_cons, ha, ih]

lemma length_nlargest [LinearOrder β] (k : Nat) (key : α → β) (l : List α) :
    (nlargest k key l).length = min k l.length := by
  rw [nlargest, List.length_take, length_sortDescBy]

lemma pairwise_nlargest [LinearOrder β] (k : Nat) (key : α → β) (l : List α) :
    List.Pairwise (fun x y => key y ≤ key x) (nlargest k key l) :=
  List.Pairwise.sublist (List.take_sublist k _) (pairwise_sortDescBy key l)

lemma filter_nlargest [LinearOrder β] (k : Nat) (key : α → β) (v : β) (l : List α) :
    (nlargest k key l).filter (fun x => key x = v) <+:
      l.filter (fun x => key x = v) := by
  rw [← filter_sortDescBy key v l]
  exact List.IsPrefix.filter _ ( List.take_prefix k _)

/-! ## The claims about insight generation -/

/-- **C7**: for every non-empty result collection, the rankings
`top_longest` (keyed on `sequence_length`) and `top_highest_peak` (keyed on
`max_value`) hold `min 5 count` entries — at most 5, and fewer exactly when
fewer results exist, with no padding — sorted descending by their key; and
for every key value, the kept entries with that key are an initial segment
of all the collection's entries with that key in original order (stable
ties: earlier appearance wins). -/
theorem C7_top5_rankings :
    ∀ (d : Analysis) (ds : List Analysis) (i : Insights),
      generate_insights (d :: ds) = Except.ok i →
      (i.top_longest.length = min 5 (d :: ds).length ∧
        i.top_highest_peak.length = min 5 (d :: ds).length) ∧
      (List.Pairwise (fun p q => q.2 ≤ p.2) i.top_longest ∧
        List.Pairwise (fun p q => q.2 ≤ p.2) i.top_highest_peak) ∧
      (∀ v : Nat, i.top_longest.filter (fun p => p.2 = v) <+:
        ((d :: ds).map (fun a => (a.starting_number, a.sequence_length))).filter
          (fun p => p.2 = v)) ∧
      (∀ v : Int, i.top_highest_peak.filter (fun p => p.2 = v) <+:
        ((d :: ds).map (fun a => (a.starting_number, a.max_value))).filter
          (fun p => p.2 = v)) := by
  intro d ds i h
  simp only [generate_insights, Except.ok.injEq] at h
  subst h
  refine ⟨⟨?_, ?_⟩, ⟨?_, ?_⟩, ?_, ?_⟩
  · simp [List.length_map, length_nlargest]
  · simp [List.length_map, length_nlargest]
  · exact List.pairwise_map.mpr (pairwise_nlargest 5 _ _)
  · exact List.pairwise_map.mpr (pairwise_nlargest 5 _ _)
  · intro v
    rw [List.filter_map, List.filter_map]
    exact List.IsPrefix.map _ (filter_nlargest 5 _ v _)
  · intro v
    rw [List.filter_map, List.filter_map]
    exact List.IsPrefix.map _ (filter_nlargest 5 _ v _)

/-- Witness for C7, on the single-result collection for 2 and key value 2. -/
theorem C7_top5_rankings_witness :
    (insightsOf2.top_longest.length = min 5 1 ∧
      insightsOf2.top_highest_peak.length = min 5 1) ∧
    insightsOf2.top_longest.filter (fun p => p.2 = 2) <+:
      ([analysisOf2].map (fun a => (a.starting_number, a.sequence_length))).filter
        (fun p => p.2 = 2) :=
  ⟨(C7_top5_rankings analysisOf2 [] insightsOf2 rfl).1,
   (C7_top5_rankings analysisOf2 [] insightsOf2 rfl).2.2.1 2⟩

/-- **C8**: over zero successful results, insight generation signals the
no-data error and computes nothing; over any non-empty results it returns
insights. -/
theorem C8_no_data_error :
    generate_insights [] = Except.error "No data available for analysis" ∧
    ∀ (d : Analysis) (ds : List Analysis), ∃ i : Insights,
      generate_insights (d :: ds) = Except.ok i :=
  ⟨rfl, fun _ _ => ⟨_, rfl⟩⟩

/-- **C9, counterexample**: the claim fails on the engine the sources cite
(src/collatz_conjecture.py): `run_analysis` concatenates every frame into
the instance table (line 133) and `generate_insights` aggregates over that
table, so running the range (1, 1) before the range (2, 2) changes the
insight total from 1 to 2 for the same request. -/
theorem C9_insights_purity_counterexample :
    run_analysis 10 [] 1 1 = some ([analysisOf1], [analysisOf1]) ∧
    run_analysis 10 [analysisOf1] 2 2 =
      some ([analysisOf2], [analysisOf1, analysisOf2]) ∧
    run_analysis 10 [] 2 2 = some ([analysisOf2], [analysisOf2]) ∧
    (generate_insights [analysisOf1, analysisOf2]).map
        Insights.total_numbers_analyzed = Except.ok 2 ∧
    (generate_insights [analysisOf2]).map
        Insights.total_numbers_analyzed = Except.ok 1 ∧
    (2 : Nat) ≠ 1 :=
  ⟨rfl, rfl, rfl, rfl, rfl, by norm_num⟩

/-- **C9, amended**: in the web API route (src/app.py) the claim holds — the
handler derives the insights solely from the request's own result list and
touches no cross-request state, so insights are a pure view of the request;
in the CLI engine (src/collatz_conjecture.py) each range analysis appends
its frame to the accumulated table over which insights are later computed,
so earlier range analyses do change them. -/
theorem C9_insights_purity_amended :
    (∀ (fuel : Nat) (s e : Int) (results : List Analysis)
      (ins : Except String Insights),
      handle_analyze_range fuel s e = some (Except.ok (results, ins)) →
      ins = generate_insights results) ∧
    (∀ (fuel : Nat) (data : List Analysis) (s e : Int) (df data' : List Analysis),
      run_analysis fuel data s e = some (df, data') → data' = data ++ df) := by
  constructor
  · intro fuel s e results ins h
    unfold handle_analyze_range at h
    cases hr : analyze_range_request fuel s e with
    | none => rw [hr] at h; simp at h
    | some v =>
      rw [hr] at h
      cases v with
      | error e2 => simp [Except.map] at h
      | ok lst =>
        simp only [Option.map_some', Option.some_inj, Except.map,
          Except.ok.injEq, Prod.mk.injEq] at h
        obtain ⟨h1, h2⟩ := h
        rw [← h2, ← h1]
  · intro fuel data s e df data' h
    unfold run_analysis at h
    cases hl : analyze_range_loop fuel (intRange s e) with
    | none => rw [hl] at h; simp at h
    | some l2 =>
      rw [hl] at h
      simp only [Option.map_some', Option.some_inj, Prod.mk.injEq] at h
      obtain ⟨h1, h2⟩ := h
      rw [← h2, h1]

/-- Witness for C9 amended: the request `(2, 2)` on the web handler, and the
accumulation equation of the engine after the two concrete runs. -/
theorem C9_insights_purity_amended_witness :
    Except.ok insightsOf2 = generate_insights [analysisOf2] ∧
    [analysisOf1, analysisOf2] = [analysisOf1] ++ [analysisOf2] :=
  ⟨C9_insights_purity_amended.1 10 2 2 [analysisOf2] (Except.ok insightsOf2) rfl,
   C9_insights_purity_amended.2 10 [analysisOf1] 2 2 [analysisOf2]
     [analysisOf1, analysisOf2] rfl⟩

end Collatz
